import Mathlib

/-!
Shallow embedding of the json-path core (src/index.ts): the JSONPath
tokenizer, path-segment evaluator, recursive-descent collector and the
filter-expression mini-interpreter, together with theorems settling the
specification claims.

Modelling conventions:
* JavaScript strings are modelled as `List Char`; `String` is used only at
  the API boundary (token payloads, JSON string values, object keys).
* JSON numbers (IEEE 754 doubles in the source) are modelled as `Int`;
  no claim depends on non-integer numerics, and the numeric parsers below
  are restricted accordingly (a doc comment marks each restriction).
* A JavaScript number that may be `NaN` (the result of `parseInt`) is
  modelled as `Option Int` with `none` for `NaN`.
* The slice loop `for (let si = start; si < end; si += step)` can diverge
  (step `<= 0` with `start < end`); it is modelled with fuel, and the
  evaluator returns `Option` results where `none` marks divergence of the
  original loop.  Every other construct of the source is total.
* Object property access (`record[prop]`, `prop in record`) is modelled as
  own-key lookup in the ordered field list — the mapping semantics of the
  spec's value model and of the source's own `JsonValue` typing.  At
  runtime the source's bare lookups also traverse the JavaScript prototype
  chain and can yield inherited functions (values outside the `JsonValue`
  union); that is a defect of the source, recorded as the failing input of
  the reachability claim, not reproduced by the model.
-/

/-- The `JsonValue` union of the source
(`string | number | boolean | null | JsonValue[] | { [key: string]: JsonValue }`).
Objects keep key-insertion order, as JavaScript objects do for string keys.
Numbers are modelled as `Int` (the source uses float64). -/
inductive JsonValue where
  | null : JsonValue
  | bool (b : Bool) : JsonValue
  | num (n : Int) : JsonValue
  | str (s : String) : JsonValue
  | arr (items : List JsonValue) : JsonValue
  | obj (fields : List (String × JsonValue)) : JsonValue
deriving Repr

/-- The six token types of the `Token` interface in the source. -/
inductive TokenType where
  | property : TokenType
  | index : TokenType
  | wildcard : TokenType
  | recursive : TokenType
  | filter : TokenType
  | slice : TokenType
deriving DecidableEq, Repr

/-- The `Token` interface: `{ type: ...; value: string }`. -/
structure Token where
  type : TokenType
  value : String
deriving DecidableEq, Repr

/-- Single-quote character, written by code point to keep the source plain. -/
def squote : Char := Char.ofNat 39

/-- Double-quote character, written by code point. -/
def dquote : Char := Char.ofNat 34

/-- Property-name characters: everything up to the next `.` or `[`
(the scan loops at lines 105 and 117 of the source). -/
def isPropChar (ch : Char) : Bool := !(ch == '.' || ch == '[')

/-- The bracket scan of `tokenize` (source lines 125-133): consume
characters while the tracked depth is positive; the bracket that brings the
depth to zero is dropped and scanning resumes after it.  Returns the bracket
content and the unconsumed remainder.  If the string ends first, everything
is consumed as content (the missing `]` is forgiven). -/
def scanBracket : List Char → Nat → List Char × List Char
  | [], _ => ([], [])
  | ch :: rest, depth =>
    let depth' := if ch == '[' then depth + 1 else if ch == ']' then depth - 1 else depth
    if depth' > 0 then
      let (content, r) := scanBracket rest depth'
      (ch :: content, r)
    else ([], rest)

/-- Strip every single- and double-quote character
(`content.replace(/['"]/g, "")`, source line 145). -/
def stripQuotes (cs : List Char) : List Char :=
  cs.filter fun ch => !(ch == squote || ch == dquote)

/-- The `/^\d+$/` test of source line 141: nonempty and all ASCII digits. -/
def allDigits (cs : List Char) : Bool := !cs.isEmpty && cs.all Char.isDigit

/-- Classification of bracket content (source lines 135-147).  Every
content string yields exactly one token: `*`, leading `?`, a `:` anywhere,
all digits, and otherwise the catch-all property branch with quotes
stripped. -/
def classifyBracket (content : List Char) : Token :=
  if content = ['*'] then ⟨.wildcard, "*"⟩
  else if content.head? = some '?' then ⟨.filter, String.mk content.tail⟩
  else if content.contains ':' then ⟨.slice, String.mk content⟩
  else if allDigits content then ⟨.index, String.mk content⟩
  else ⟨.property, String.mk (stripQuotes content)⟩

theorem dropWhile_length_le (p : Char → Bool) (cs : List Char) :
    (cs.dropWhile p).length ≤ cs.length := by
  induction cs with
  | nil => simp
  | cons a l ih =>
    simp only [List.dropWhile]
    split
    · exact Nat.le_succ_of_le ih
    · simp

theorem scanBracket_snd_length (cs : List Char) :
    ∀ depth, (scanBracket cs depth).2.length ≤ cs.length := by
  induction cs with
  | nil => intro depth; simp [scanBracket]
  | cons ch rest ih =>
    intro depth
    rw [scanBracket]
    set d := if ch == '[' then depth + 1 else if ch == ']' then depth - 1 else depth with hd
    split
    · simpa using Nat.le_succ_of_le (ih d)
    · simp

/-- The character-level tokenizer loop (source lines 95-154), one equation
per iteration shape: `..` starts a recursive segment, `.*` a wildcard,
`.`+name a property (empty names emit nothing), `[` a bracket scan, and any
other character is skipped. -/
def tokenizeAux : List Char → List Token
  | [] => []
  | '.' :: '.' :: rest =>
    ⟨.recursive, String.mk (rest.takeWhile isPropChar)⟩ :: tokenizeAux (rest.dropWhile isPropChar)
  | '.' :: '*' :: rest => ⟨.wildcard, "*"⟩ :: tokenizeAux rest
  | '.' :: rest =>
    (if (rest.takeWhile isPropChar).isEmpty then [] else
      [⟨.property, String.mk (rest.takeWhile isPropChar)⟩]) ++ tokenizeAux (rest.dropWhile isPropChar)
  | '[' :: rest =>
    let s := scanBracket rest 1
    classifyBracket s.1 :: tokenizeAux s.2
  | _ :: rest => tokenizeAux rest
termination_by cs => cs.length
decreasing_by
  all_goals simp_wf
  all_goals first
    | omega
    | (have h := dropWhile_length_le isPropChar rest; omega)
    | (have h := scanBracket_snd_length rest 1; omega)

/-- `tokenize` (source line 95): run the scanning loop over the query text
(the `$` has already been removed by the caller). -/
def tokenize (expr : String) : List Token := tokenizeAux expr.toList

/-- Numeric value of a digit string (no sign), most significant first. -/
def digitsVal (ds : List Char) : Nat :=
  ds.foldl (fun a ch => a * 10 + (ch.toNat - 48)) 0

/-- JavaScript `parseInt(s, 10)`: skip leading whitespace, read an optional
sign and then a maximal digit prefix; `NaN` (modelled `none`) when no digit
follows.  Trailing garbage is ignored, as in JavaScript. -/
def jsParseInt (cs : List Char) : Option Int :=
  match cs.dropWhile Char.isWhitespace with
  | [] => none
  | ch :: rest =>
    if ch == '-' then
      (if (rest.takeWhile Char.isDigit).isEmpty then none
       else some (-(digitsVal (rest.takeWhile Char.isDigit) : Int)))
    else if ch == '+' then
      (if (rest.takeWhile Char.isDigit).isEmpty then none
       else some ((digitsVal (rest.takeWhile Char.isDigit) : Int)))
    else
      (if ((ch :: rest).takeWhile Char.isDigit).isEmpty then none
       else some ((digitsVal ((ch :: rest).takeWhile Char.isDigit) : Int)))

/-- JavaScript `Number(s)` restricted to the integer fragment: whitespace
trimmed on both sides, empty means `0`, otherwise an optional sign followed
by digits only; everything else (including decimals, which no claim
exercises) is `NaN` (`none`). -/
def jsNumber (cs : List Char) : Option Int :=
  match ((cs.dropWhile Char.isWhitespace).reverse.dropWhile Char.isWhitespace).reverse with
  | [] => some 0
  | ch :: rest =>
    if ch == '-' then
      (if allDigits rest then some (-(digitsVal rest : Int)) else none)
    else if ch == '+' then
      (if allDigits rest then some ((digitsVal rest : Int)) else none)
    else
      (if allDigits (ch :: rest) then some ((digitsVal (ch :: rest) : Int)) else none)

/-- A JavaScript number restricted to integers-or-NaN: `none` is `NaN`. -/
abbrev JsNum := Option Int

/-- JavaScript `<` on numbers: false whenever either side is `NaN`. -/
def jsLt : JsNum → JsNum → Bool
  | some a, some b => a < b
  | _, _ => false

/-- JavaScript `+` on numbers: `NaN` absorbs. -/
def jsAdd : JsNum → JsNum → JsNum
  | some a, some b => some (a + b)
  | _, _ => none

/-- JavaScript `"a:b:c".split(":")`. -/
def splitColon : List Char → List (List Char)
  | [] => [[]]
  | ch :: rest =>
    if ch == ':' then [] :: splitColon rest
    else
      match splitColon rest with
      | g :: gs => (ch :: g) :: gs
      | [] => [[ch]]

/-- `parts[k] ?? d` over the mapped slice parts (source lines 196-199):
an absent or empty component takes the default `d`; a nonempty component is
`parseInt`ed and may be `NaN`, which is kept (only `undefined` triggers the
default). -/
def partOr (parts : List (Option JsNum)) (k : Nat) (d : Int) : JsNum :=
  match parts.get? k with
  | some (some v) => v
  | _ => some d

/-- The three slice bounds of source lines 196-199 for an array of length
`len`: split on `:`, `parseInt` nonempty components, default `0`, `len`,
`1`. -/
def sliceBounds (content : String) (len : Nat) : JsNum × JsNum × JsNum :=
  let parts := (splitColon content.toList).map fun p =>
    if p.isEmpty then none else some (jsParseInt p)
  (partOr parts 0 0, partOr parts 1 len, partOr parts 2 1)

/-- One fuel-indexed unfolding of the slice loop
`for (let si = start; si < end; si += step)` (source lines 200-202): `none`
when the fuel runs out before the loop exits; in-range indices contribute
the element, out-of-range indices are skipped. -/
def sliceLoopF (arr : List JsonValue) (e step : JsNum) : Nat → JsNum → Option (List JsonValue)
  | 0, _ => none
  | fuel + 1, si =>
    if jsLt si e then
      let head : List JsonValue :=
        match si with
        | some i => if 0 ≤ i ∧ i < (arr.length : Int) then [arr.getD i.toNat .null] else []
        | none => []
      (sliceLoopF arr e step fuel (jsAdd si step)).map (head ++ ·)
    else some []

/-- Fuel sufficient for every terminating run of the slice loop: when the
loop diverges (nonpositive step with `start < end`) no finite fuel
completes it, so the `none` this bound produces is an honest divergence
marker (`sliceLoopF_nonpos_none` below). -/
def sliceFuel : JsNum → JsNum → Nat
  | some a, some b => (b - a).toNat + 2
  | _, _ => 2

/-- The slice arm of `applyToken` for one array input: compute the bounds,
then run the loop with sufficient fuel. -/
def sliceApply (arr : List JsonValue) (content : String) : Option (List JsonValue) :=
  let b := sliceBounds content arr.length
  sliceLoopF arr b.2.1 b.2.2 (sliceFuel b.1 b.2.1) b.1

/-- With a nonpositive integer step and `start < end` the slice loop of the
source never exits: no amount of fuel reaches a result.  This is the
divergence witnessed by `none` in this embedding. -/
theorem sliceLoopF_nonpos_none (arr : List JsonValue) (e s : Int) (hs : s ≤ 0) :
    ∀ fuel si, si < e → sliceLoopF arr (some e) (some s) fuel (some si) = none := by
  intro fuel
  induction fuel with
  | zero => intro si _; rfl
  | succ n ih =>
    intro si hsi
    have hlt : jsLt (some si) (some e) = true := by simp [jsLt, hsi]
    simp only [sliceLoopF, hlt, if_true, jsAdd]
    rw [ih (si + s) (by omega)]
    rfl

/-- JavaScript `\w` (ASCII word character). -/
def isWordChar (ch : Char) : Bool := ch.isAlphanum || ch == '_'

/-- The ECMAScript `\s` class used by the filter regex: WhiteSpace
(tab, vertical tab, form feed, space, no-break space, zero-width no-break
space, and the Unicode space separators) together with the LineTerminator
set (line feed, carriage return, line separator, paragraph separator). -/
def jsRegexWs (ch : Char) : Bool :=
  ch == Char.ofNat 0x09 || ch == Char.ofNat 0x0a || ch == Char.ofNat 0x0b ||
  ch == Char.ofNat 0x0c || ch == Char.ofNat 0x0d || ch == Char.ofNat 0x20 ||
  ch == Char.ofNat 0xa0 || ch == Char.ofNat 0x1680 ||
  (Char.ofNat 0x2000 ≤ ch && ch ≤ Char.ofNat 0x200a) ||
  ch == Char.ofNat 0x2028 || ch == Char.ofNat 0x2029 ||
  ch == Char.ofNat 0x202f || ch == Char.ofNat 0x205f ||
  ch == Char.ofNat 0x3000 || ch == Char.ofNat 0xfeff

/-- The characters ECMAScript `.` matches when the `s` flag is absent:
everything except the LineTerminator set (line feed, carriage return, line
separator, paragraph separator). -/
def jsDot (ch : Char) : Bool :=
  !(ch == Char.ofNat 0x0a || ch == Char.ofNat 0x0d ||
    ch == Char.ofNat 0x2028 || ch == Char.ofNat 0x2029)

/-- The ordered operator alternation `(==|!=|>=|<=|>|<)` of the filter
regex (source line 232): alternatives are tried left to right, so the
two-character operators win over their one-character prefixes. -/
def matchOp : List Char → Option (String × List Char)
  | '=' :: '=' :: r => some ("==", r)
  | '!' :: '=' :: r => some ("!=", r)
  | '>' :: '=' :: r => some (">=", r)
  | '<' :: '=' :: r => some ("<=", r)
  | '>' :: r => some (">", r)
  | '<' :: r => some ("<", r)
  | _ => none

/-- Does a suffix match the regex tail `\s*\)?$`: optional `\s` whitespace,
then at most one `)`, then the end. -/
def tailWs (w : List Char) : Bool :=
  let w2 := w.dropWhile jsRegexWs
  w2.isEmpty || w2 == [')']

/-- The lazy group `(.+?)` followed by `\s*\)?$`: the shortest nonempty
prefix whose complement matches the tail, where `.` never matches a
line terminator (`jsDot`), so hitting one fails every longer value too. -/
def lazyValue (pre : List Char) : List Char → Option (List Char)
  | [] => none
  | ch :: rest =>
    if !jsDot ch then none
    else if tailWs rest then some (pre ++ [ch])
    else lazyValue (pre ++ [ch]) rest

/-- Backtracking of the greedy `\s*` before the value group: try the
longest whitespace prefix first (`k` positions skipped), then shorter
ones. -/
def valueSearch (r : List Char) : Nat → Option (List Char)
  | 0 => lazyValue [] r
  | k + 1 =>
    match lazyValue [] (r.drop (k + 1)) with
    | some v => some v
    | none => valueSearch r k

/-- The value part `\s*(.+?)\s*\)?$` of the filter regex. -/
def matchValue (r : List Char) : Option (List Char) :=
  valueSearch r (r.takeWhile jsRegexWs).length

/-- The filter regex `/^\(?\s*@\.(\w+)\s*(==|!=|>=|<=|>|<)\s*(.+?)\s*\)?$/`
of source line 232, compiled to a deterministic matcher (each regex
construct here admits no observable backtracking except the `\s*(.+?)`
interplay handled by `valueSearch`).  Produces the field name, operator and
raw literal text. -/
def parseFilterExpr (cs : List Char) : Option (String × String × List Char) :=
  let cs1 := match cs with
    | ch :: r => if ch == '(' then r else cs
    | [] => cs
  match cs1.dropWhile jsRegexWs with
  | '@' :: '.' :: rest =>
    let field := rest.takeWhile isWordChar
    if field.isEmpty then none
    else
      match matchOp ((rest.dropWhile isWordChar).dropWhile jsRegexWs) with
      | none => none
      | some (op, rest3) =>
        match matchValue rest3 with
        | none => none
        | some v => some (String.mk field, op, v)
  | _ => none

/-- Literal decoding of the filter right-hand side (source lines 242-248):
`true`, `false`, `null`, a leading quote (all quotes stripped), a numeric
parse, else the raw text as a string. -/
def decodeLiteral (raw : List Char) : JsonValue :=
  if raw = "true".toList then .bool true
  else if raw = "false".toList then .bool false
  else if raw = "null".toList then .null
  else if (raw.head?.elim false fun ch => ch == squote || ch == dquote) then
    .str (String.mk (stripQuotes raw))
  else
    match jsNumber raw with
    | some n => .num n
    | none => .str (String.mk raw)

/-- JavaScript `===` between a candidate field value and the decoded
literal.  The literal is always a freshly-decoded primitive, so when either
side is an array or object the two sides are never reference-equal and the
comparison is `false`; on primitives `===` is same-variant-and-same-value. -/
def jsStrictEq : JsonValue → JsonValue → Bool
  | .null, .null => true
  | .bool a, .bool b => a == b
  | .num a, .num b => a == b
  | .str a, .str b => a == b
  | _, _ => false

/-- The operator switch of `evaluateFilter` (source lines 250-265). -/
def applyOp (op : String) (fieldVal compareVal : JsonValue) : Bool :=
  if op = "==" then jsStrictEq fieldVal compareVal
  else if op = "!=" then !jsStrictEq fieldVal compareVal
  else if op = ">" then
    match fieldVal, compareVal with
    | .num a, .num b => a > b
    | _, _ => false
  else if op = "<" then
    match fieldVal, compareVal with
    | .num a, .num b => a < b
    | _, _ => false
  else if op = ">=" then
    match fieldVal, compareVal with
    | .num a, .num b => a ≥ b
    | _, _ => false
  else if op = "<=" then
    match fieldVal, compareVal with
    | .num a, .num b => a ≤ b
    | _, _ => false
  else false

/-- `evaluateFilter` (source lines 230-266): regex-parse the predicate
(failure means `false`), require an object candidate, look the field up
(absence means `false`), decode the literal, apply the operator.  The
lookup `record[field]` is modelled as own-key lookup in the field list; at
runtime the source's bare indexing additionally reaches inherited
JavaScript prototype members (functions outside the JSON value model) —
the defect recorded under the reachability claim. -/
def evaluateFilter (item : JsonValue) (filterExpr : String) : Bool :=
  match parseFilterExpr filterExpr.toList with
  | none => false
  | some (field, op, raw) =>
    match item with
    | .obj fields =>
      match List.lookup field fields with
      | none => false
      | some fieldVal => applyOp op fieldVal (decodeLiteral raw)
    | _ => false

mutual

/-- `collectRecursive` (source lines 212-228): pre-order depth-first
traversal; at each object the matching key's value is appended first, then
every field value is descended into (in insertion order); arrays descend
into their elements in order; other values contribute nothing.  The
source's accumulator pushes are modelled by list concatenation in push
order.  The `prop in record` test is modelled as own-key lookup; the
JavaScript `in` operator additionally finds inherited prototype members
(e.g. `"toString" in {}` is true), a defect recorded under the
reachability claim. -/
def collectRecursive : JsonValue → String → List JsonValue
  | .obj fields, prop =>
    (match List.lookup prop fields with
     | some v => [v]
     | none => []) ++ collectFields fields prop
  | .arr items, prop => collectItems items prop
  | _, _ => []

/-- The `for (const val of Object.values(record))` loop of
`collectRecursive`. -/
def collectFields : List (String × JsonValue) → String → List JsonValue
  | [], _ => []
  | kv :: rest, prop => collectRecursive kv.2 prop ++ collectFields rest prop

/-- The `for (const item of obj)` loop of `collectRecursive`. -/
def collectItems : List JsonValue → String → List JsonValue
  | [], _ => []
  | v :: rest, prop => collectRecursive v prop ++ collectItems rest prop

end

/-- The per-input switch of `applyToken` (source lines 159-206).  The
result is `some` sub-list except in the slice arm, where `none` records
that the source's loop diverges on these parameters.  The property arm's
`input[token.value]` is modelled as own-key lookup in the field list, the
mapping semantics the spec's value model and the source's `JsonValue`
typing prescribe; the source's bare indexing additionally reaches
inherited prototype members (e.g. `({})["toString"]` is a function, not
`undefined`) — the defect recorded under the reachability claim. -/
def applyTokenOne (input : JsonValue) (token : Token) : Option (List JsonValue) :=
  match token.type with
  | .property =>
    match input with
    | .obj fields =>
      match List.lookup token.value fields with
      | some v => some [v]
      | none => some []
    | _ => some []
  | .index =>
    match input with
    | .arr items =>
      match jsParseInt token.value.toList with
      | some idx =>
        if 0 ≤ idx ∧ idx < (items.length : Int) then some [items.getD idx.toNat .null]
        else some []
      | none => some []
    | _ => some []
  | .wildcard =>
    match input with
    | .arr items => some items
    | .obj fields => some (fields.map Prod.snd)
    | _ => some []
  | .recursive => some (collectRecursive input token.value)
  | .filter =>
    match input with
    | .arr items => some (items.filter fun it => evaluateFilter it token.value)
    | _ => some []
  | .slice =>
    match input with
    | .arr items => sliceApply items token.value
    | _ => some []

/-- `applyToken` (source lines 156-210): apply the token to every element
of the current result set, concatenating sub-results in input order (the
`for (const input of inputs)` loop pushing onto `results`).  A divergence
at any input diverges the whole application. -/
def applyToken : List JsonValue → Token → Option (List JsonValue)
  | [], _ => some []
  | input :: rest, token =>
    match applyTokenOne input token, applyToken rest token with
    | some r, some rs => some (r ++ rs)
    | _, _ => none

/-- The token fold of `queryJsonPath` (source lines 83-85):
`for (const token of tokens) results = applyToken(results, token)`. -/
def evalTokens : List Token → List JsonValue → Option (List JsonValue)
  | [], results => some results
  | token :: rest, results =>
    match applyToken results token with
    | some next => evalTokens rest next
    | none => none

/-- `expression.startsWith("$")` (source line 76), stated on the character
list: the prefix is the single character `$`. -/
def startsWithDollar (s : String) : Bool :=
  match s.toList with
  | ch :: _ => ch == '$'
  | [] => false

/-- `queryJsonPath` (source lines 75-88): reject expressions that do not
start with `$` (the only `throw` of the engine), then tokenize the rest
(`expression.slice(1)`) and fold the evaluator from the singleton root set.
`.ok none` records that the source diverges (possible only inside a slice
loop). -/
def queryJsonPath (data : JsonValue) (expression : String) :
    Except String (Option (List JsonValue)) :=
  if startsWithDollar expression then
    .ok (evalTokens (tokenizeAux (expression.toList.drop 1)) [data])
  else
    .error ("Expression must start with $. Got: " ++ expression)

/-- The five-element array `[10,20,30,40,50]` of the spec's slice tests. -/
def arrFive : JsonValue := .arr [.num 10, .num 20, .num 30, .num 40, .num 50]

/-- A three-element array for the out-of-range slice test. -/
def arrThree : JsonValue := .arr [.num 1, .num 2, .num 3]

/-- The recursive-descent test document
`{"a":{"name":"x","b":{"name":"y"}}}`. -/
def docNested : JsonValue :=
  .obj [("a", .obj [("name", .str "x"), ("b", .obj [("name", .str "y")])])]

/-- A document with the same key at two depths, to observe duplicate
collection. -/
def docDup : JsonValue := .obj [("k", .null), ("b", .obj [("k", .null)])]

/-- `Subvalue v w`: `v` is a node of the JSON tree `w` (reflexive; step
into an array element or an object field value).  Captures "present in, or
directly aliased from, the original document". -/
inductive Subvalue : JsonValue → JsonValue → Prop where
  | refl (v : JsonValue) : Subvalue v v
  | arrElem {w v : JsonValue} {items : List JsonValue} :
      v ∈ items → Subvalue w v → Subvalue w (.arr items)
  | objField {w v : JsonValue} {k : String} {fields : List (String × JsonValue)} :
      (k, v) ∈ fields → Subvalue w v → Subvalue w (.obj fields)

theorem Subvalue.trans {a b c : JsonValue} (h1 : Subvalue a b) (h2 : Subvalue b c) :
    Subvalue a c := by
  induction h2 with
  | refl => exact h1
  | arrElem hm _ ih => exact .arrElem hm ih
  | objField hm _ ih => exact .objField hm ih

theorem lookup_mem {k : String} {v : JsonValue} :
    ∀ {fields : List (String × JsonValue)}, List.lookup k fields = some v → (k, v) ∈ fields := by
  intro fields h
  induction fields with
  | nil => simp [List.lookup] at h
  | cons kv rest ih =>
    match kv with
    | (k', v') =>
      rw [List.lookup] at h
      by_cases hk : k == k'
      · rw [hk] at h
        simp at h hk
        subst hk; subst h
        exact List.mem_cons_self _ _
      · rw [Bool.not_eq_true] at hk
        rw [hk] at h
        exact List.mem_cons_of_mem _ (ih h)

theorem getD_mem {l : List JsonValue} {n : Nat} (h : n < l.length) (d : JsonValue) :
    l.getD n d ∈ l := by
  rw [List.getD_eq_getElem l d h]
  exact List.getElem_mem h

mutual

theorem collectRecursive_sub (input : JsonValue) (prop : String) :
    ∀ v ∈ collectRecursive input prop, Subvalue v input := by
  intro v hv
  match input with
  | .obj fields =>
    cases hlook : List.lookup prop fields with
    | none =>
      rw [collectRecursive, hlook] at hv
      simp only [List.nil_append] at hv
      obtain ⟨k, w, hkw, hsub⟩ := collectFields_sub fields prop v hv
      exact Subvalue.objField hkw hsub
    | some w =>
      rw [collectRecursive, hlook] at hv
      rcases List.mem_append.mp hv with h | h
      · rw [List.mem_singleton] at h
        subst h
        exact Subvalue.objField (lookup_mem hlook) (Subvalue.refl _)
      · obtain ⟨k, u, hku, hsub⟩ := collectFields_sub fields prop v h
        exact Subvalue.objField hku hsub
  | .arr items =>
    rw [collectRecursive] at hv
    obtain ⟨w, hw, hsub⟩ := collectItems_sub items prop v hv
    exact Subvalue.arrElem hw hsub
  | .null => simp [collectRecursive] at hv
  | .bool b => simp [collectRecursive] at hv
  | .num n => simp [collectRecursive] at hv
  | .str s => simp [collectRecursive] at hv

theorem collectFields_sub (fields : List (String × JsonValue)) (prop : String) :
    ∀ v ∈ collectFields fields prop, ∃ k w, (k, w) ∈ fields ∧ Subvalue v w := by
  intro v hv
  match fields with
  | [] => rw [collectFields] at hv; exact absurd hv (List.not_mem_nil v)
  | (k, w) :: rest =>
    rw [collectFields] at hv
    rcases List.mem_append.mp hv with h | h
    · exact ⟨k, w, List.mem_cons_self _ _, collectRecursive_sub w prop v h⟩
    · obtain ⟨k2, w2, hkw, hsub⟩ := collectFields_sub rest prop v h
      exact ⟨k2, w2, List.mem_cons_of_mem _ hkw, hsub⟩

theorem collectItems_sub (items : List JsonValue) (prop : String) :
    ∀ v ∈ collectItems items prop, ∃ w ∈ items, Subvalue v w := by
  intro v hv
  match items with
  | [] => rw [collectItems] at hv; exact absurd hv (List.not_mem_nil v)
  | w :: rest =>
    rw [collectItems] at hv
    rcases List.mem_append.mp hv with h | h
    · exact ⟨w, List.mem_cons_self _ _, collectRecursive_sub w prop v h⟩
    · obtain ⟨w2, hw2, hsub⟩ := collectItems_sub rest prop v h
      exact ⟨w2, List.mem_cons_of_mem _ hw2, hsub⟩

end

/-- Every element a terminating slice loop emits is an element of the
array. -/
theorem sliceLoopF_mem (arr : List JsonValue) (e step : JsNum) :
    ∀ (fuel : Nat) (si : JsNum) (out : List JsonValue),
      sliceLoopF arr e step fuel si = some out → ∀ v ∈ out, v ∈ arr := by
  intro fuel
  induction fuel with
  | zero => intro si out h; exact absurd h (by simp [sliceLoopF])
  | succ n ih =>
    intro si out h v hv
    simp only [sliceLoopF] at h
    split at h
    · obtain ⟨tail, htail, rfl⟩ := Option.map_eq_some'.mp h
      rcases List.mem_append.mp hv with hh | hh
      · split at hh
        · rename_i i
          split at hh
          · rw [List.mem_singleton] at hh
            subst hh
            rename_i hrange
            exact getD_mem (by omega) _
          · exact absurd hh (List.not_mem_nil v)
        · exact absurd hh (List.not_mem_nil v)
      · exact ih _ tail htail v hh
    · cases h
      exact absurd hv (List.not_mem_nil v)

/-- Per-input soundness of `applyToken`: every produced value is a node of
the input value. -/
theorem applyTokenOne_sub (input : JsonValue) (token : Token) (out : List JsonValue)
    (h : applyTokenOne input token = some out) : ∀ v ∈ out, Subvalue v input := by
  intro v hv
  obtain ⟨ttype, tvalue⟩ := token
  cases ttype <;> cases input <;> simp only [applyTokenOne] at h
  all_goals try (cases h; exact absurd hv (List.not_mem_nil v))
  all_goals try (cases h; exact collectRecursive_sub _ tvalue v hv)
  case property.obj fields =>
    cases hlook : List.lookup tvalue fields with
    | none => simp only [hlook] at h; cases h; exact absurd hv (List.not_mem_nil v)
    | some w =>
      simp only [hlook] at h; cases h
      rw [List.mem_singleton] at hv; subst hv
      exact Subvalue.objField (lookup_mem hlook) (Subvalue.refl _)
  case index.arr items =>
    cases hp : jsParseInt tvalue.toList with
    | none => simp only [hp] at h; cases h; exact absurd hv (List.not_mem_nil v)
    | some idx =>
      simp only [hp] at h
      by_cases hrange : 0 ≤ idx ∧ idx < (items.length : Int)
      · rw [if_pos hrange] at h
        cases h
        rw [List.mem_singleton] at hv; subst hv
        exact Subvalue.arrElem (getD_mem (by omega) _) (Subvalue.refl _)
      · rw [if_neg hrange] at h
        cases h; exact absurd hv (List.not_mem_nil v)
  case wildcard.arr items =>
    cases h
    exact Subvalue.arrElem hv (Subvalue.refl _)
  case wildcard.obj fields =>
    cases h
    obtain ⟨kv, hkv, rfl⟩ := List.mem_map.mp hv
    exact Subvalue.objField (show (kv.1, kv.2) ∈ fields by simpa using hkv) (Subvalue.refl _)
  case filter.arr items =>
    cases h
    exact Subvalue.arrElem (List.mem_of_mem_filter hv) (Subvalue.refl _)
  case slice.arr items =>
    unfold sliceApply at h
    exact Subvalue.arrElem (sliceLoopF_mem items _ _ _ _ out h v hv) (Subvalue.refl _)

/-- Soundness of `applyToken` over a result set: every output value is a
node of some input value. -/
theorem applyToken_sub :
    ∀ (inputs : List JsonValue) (token : Token) (out : List JsonValue),
      applyToken inputs token = some out → ∀ v ∈ out, ∃ u ∈ inputs, Subvalue v u := by
  intro inputs
  induction inputs with
  | nil =>
    intro token out h v hv
    cases h
    exact absurd hv (List.not_mem_nil v)
  | cons input rest ih =>
    intro token out h v hv
    rw [applyToken] at h
    cases h1 : applyTokenOne input token with
    | none => rw [h1] at h; cases h
    | some r =>
      cases h2 : applyToken rest token with
      | none => rw [h1, h2] at h; cases h
      | some rs =>
        rw [h1, h2] at h
        cases h
        rcases List.mem_append.mp hv with hh | hh
        · exact ⟨input, List.mem_cons_self _ _, applyTokenOne_sub input token r h1 v hh⟩
        · obtain ⟨u, hu, hsub⟩ := ih token rs h2 v hh
          exact ⟨u, List.mem_cons_of_mem _ hu, hsub⟩

/-- Soundness of the token fold: every final value is a node of some
initial value. -/
theorem evalTokens_sub :
    ∀ (tokens : List Token) (init res : List JsonValue),
      evalTokens tokens init = some res → ∀ v ∈ res, ∃ u ∈ init, Subvalue v u := by
  intro tokens
  induction tokens with
  | nil =>
    intro init res h v hv
    cases h
    exact ⟨v, hv, Subvalue.refl v⟩
  | cons token rest ih =>
    intro init res h v hv
    rw [evalTokens] at h
    cases h1 : applyToken init token with
    | none => rw [h1] at h; cases h
    | some next =>
      rw [h1] at h
      obtain ⟨u, hu, hsub⟩ := ih next res h v hv
      obtain ⟨u2, hu2, hsub2⟩ := applyToken_sub init token next h1 u hu
      exact ⟨u2, hu2, hsub.trans hsub2⟩

/-- Every non-slice token application succeeds (only the slice loop can
diverge). -/
theorem applyTokenOne_some_of_not_slice (input : JsonValue) (token : Token)
    (h : token.type ≠ .slice) : ∃ l, applyTokenOne input token = some l := by
  obtain ⟨ttype, tvalue⟩ := token
  cases ttype <;> cases input <;> simp only [applyTokenOne]
  all_goals try exact ⟨_, rfl⟩
  all_goals try (exact absurd rfl h)
  case property.obj fields =>
    cases List.lookup tvalue fields <;> exact ⟨_, rfl⟩
  case index.arr items =>
    cases jsParseInt tvalue.toList with
    | none => exact ⟨_, rfl⟩
    | some idx =>
      show ∃ l, (if 0 ≤ idx ∧ idx < (items.length : Int)
        then some [items.getD idx.toNat JsonValue.null] else some []) = some l
      by_cases hrange : 0 ≤ idx ∧ idx < (items.length : Int)
      · rw [if_pos hrange]; exact ⟨_, rfl⟩
      · rw [if_neg hrange]; exact ⟨_, rfl⟩

theorem applyToken_some_of_not_slice :
    ∀ (inputs : List JsonValue) (token : Token), token.type ≠ .slice →
      ∃ l, applyToken inputs token = some l := by
  intro inputs token h
  induction inputs with
  | nil => exact ⟨[], rfl⟩
  | cons input rest ih =>
    obtain ⟨r, hr⟩ := applyTokenOne_some_of_not_slice input token h
    obtain ⟨rs, hrs⟩ := ih
    exact ⟨r ++ rs, by rw [applyToken, hr, hrs]⟩

theorem evalTokens_some_of_not_slice :
    ∀ (tokens : List Token), (∀ t ∈ tokens, t.type ≠ .slice) →
      ∀ init, ∃ l, evalTokens tokens init = some l := by
  intro tokens
  induction tokens with
  | nil => intro _ init; exact ⟨init, rfl⟩
  | cons token rest ih =>
    intro h init
    obtain ⟨next, hnext⟩ :=
      applyToken_some_of_not_slice init token (h token (List.mem_cons_self _ _))
    obtain ⟨l, hl⟩ := ih (fun t ht => h t (List.mem_cons_of_mem _ ht)) next
    refine ⟨l, ?_⟩
    rw [evalTokens, hnext]
    exact hl

/-- Sufficient fuel for a positive-step slice loop: it exits within
`(end - start).toNat` iterations. -/
theorem sliceLoopF_pos_isSome (arr : List JsonValue) (e s : Int) (hs : 0 < s) :
    ∀ (fuel : Nat) (si : Int), (e - si).toNat < fuel →
      (sliceLoopF arr (some e) (some s) fuel (some si)).isSome = true := by
  intro fuel
  induction fuel with
  | zero => intro si h; omega
  | succ n ih =>
    intro si hfuel
    rw [sliceLoopF]
    by_cases hsi : si < e
    · have hlt : jsLt (some si) (some e) = true := by simp [jsLt, hsi]
      simp only [hlt, if_true, jsAdd, Option.isSome_map']
      exact ih (si + s) (by omega)
    · have hlt : jsLt (some si) (some e) = false := by simp [jsLt]; omega
      simp [hlt]

/-- A slice whose parsed step is a positive integer always terminates, no
matter the start and end bounds. -/
theorem sliceApply_some_of_pos_step (arr : List JsonValue) (content : String) (s : Int)
    (hstep : (sliceBounds content arr.length).2.2 = some s) (hpos : 0 < s) :
    ∃ l, sliceApply arr content = some l := by
  unfold sliceApply
  rcases hb : sliceBounds content arr.length with ⟨st, e, stp⟩
  rw [hb] at hstep
  simp only at hstep ⊢
  subst hstep
  cases st with
  | none =>
    refine ⟨[], ?_⟩
    rw [show sliceFuel none e = 2 from rfl, sliceLoopF]
    rw [show jsLt none e = false from rfl]
    simp
  | some a =>
    cases e with
    | none =>
      refine ⟨[], ?_⟩
      rw [show sliceFuel (some a) none = 2 from rfl, sliceLoopF]
      rw [show jsLt (some a) none = false from rfl]
      simp
    | some b =>
      have h := sliceLoopF_pos_isSome arr b s hpos ((b - a).toNat + 2) a (by omega)
      rw [show sliceFuel (some a) (some b) = (b - a).toNat + 2 from rfl]
      exact Option.isSome_iff_exists.mp h

/-- A slice loop with step `1`, start `si ≥ 0` and end `length` collects
exactly the suffix of the array from `si` on. -/
theorem sliceLoopF_step_one (a : List JsonValue) :
    ∀ (fuel : Nat) (si : Int), 0 ≤ si → ((a.length : Int) - si).toNat < fuel →
      sliceLoopF a (some (a.length : Int)) (some 1) fuel (some si) = some (a.drop si.toNat) := by
  intro fuel
  induction fuel with
  | zero => intro si _ h; omega
  | succ n ih =>
    intro si hsi hfuel
    rw [sliceLoopF]
    by_cases hlt : si < (a.length : Int)
    · have hjs : jsLt (some si) (some (a.length : Int)) = true := by simp [jsLt, hlt]
      simp only [hjs, if_true, jsAdd]
      rw [ih (si + 1) (by omega) (by omega), Option.map_some']
      have hr : 0 ≤ si ∧ si < (a.length : Int) := ⟨hsi, hlt⟩
      have hn : si.toNat < a.length := by omega
      have h1 : (si + 1).toNat = si.toNat + 1 := by omega
      rw [if_pos hr, List.getD_eq_getElem a JsonValue.null hn, h1, List.singleton_append,
        ← List.drop_eq_getElem_cons hn]
    · have hjs : jsLt (some si) (some (a.length : Int)) = false := by simp [jsLt]; omega
      simp only [hjs, Bool.false_eq_true, if_false]
      rw [List.drop_eq_nil_of_le (by omega)]

/-- A decoded filter literal is a primitive: never an array or object. -/
def isPrimitiveLit : JsonValue → Bool
  | .arr _ => false
  | .obj _ => false
  | _ => true

/-- Number test on the value model (`typeof x === "number"`). -/
def isNum : JsonValue → Bool
  | .num _ => true
  | _ => false

/-- Modelled from the spec: "structural equality/inequality between field
value and literal, using the same-variant-and-same-value rule".  Stated for
the primitive literals the filter decoder can produce; on the
composite-vs-composite pairs (which a decoded literal never provides) the
rule is vacuous and this definition returns `false`. -/
def specSameVariantSameValue : JsonValue → JsonValue → Bool
  | .null, .null => true
  | .bool a, .bool b => a == b
  | .num a, .num b => a == b
  | .str a, .str b => a == b
  | _, _ => false

/-- C3: a Recursive segment performs a pre-order depth-first traversal,
appending the value bound to the target key at every object node where the
key exists — the root of the subtree first (second conjunct), with no
duplicate suppression (third conjunct, same key at two depths collected
twice); on `{"a":{"name":"x","b":{"name":"y"}}}` the query `$..name`
returns exactly `["x","y"]` in that order (first conjunct). -/
theorem claim_C3_recursive_descent :
    (queryJsonPath docNested "$..name" = .ok (some [.str "x", .str "y"])) ∧
    (∀ (fields : List (String × JsonValue)) (p : String) (v : JsonValue),
      List.lookup p fields = some v →
      collectRecursive (.obj fields) p = v :: collectFields fields p) ∧
    (collectRecursive docDup "k" = [.null, .null]) := by
  refine ⟨?_, ?_, ?_⟩
  · have h : tokenizeAux ("$..name".toList.drop 1) = [⟨.recursive, "name"⟩] := by
      rw [show "$..name".toList.drop 1 = ['.', '.', 'n', 'a', 'm', 'e'] from rfl]
      simp [tokenizeAux, isPropChar]
    rw [queryJsonPath, if_pos (by rfl), h]
    simp [evalTokens, applyToken, applyTokenOne, collectRecursive, collectFields,
      collectItems, List.lookup, docNested]
  · intro fields p v h
    rw [collectRecursive, h]
    rfl
  · simp [docDup, collectRecursive, collectFields, collectItems, List.lookup]

/-- Witness for C3: the root-level match is appended first on a concrete
one-field object. -/
theorem claim_C3_witness :
    collectRecursive (.obj [("name", .str "x")]) "name"
      = .str "x" :: collectFields [("name", .str "x")] "name" :=
  claim_C3_recursive_descent.2.1 [("name", JsonValue.str "x")] "name" (JsonValue.str "x") rfl

/-- C4: a Slice segment parses `start:end:step` with defaults `0`, array
length and `1` (final conjunct: `[:]` keeps the whole array), iterates from
start to end exclusive stepping by step, appending in-range elements and
silently skipping out-of-range indices: `[1:3]` on `[10,20,30,40,50]`
yields `[20,30]`, `[::2]` yields `[10,30,50]`, `[5:10]` on a 3-element
array yields `[]`, and a negative start (`[-1:2]`) is skipped without
error. -/
theorem claim_C4_slice :
    (queryJsonPath arrFive "$[1:3]" = .ok (some [.num 20, .num 30])) ∧
    (queryJsonPath arrFive "$[::2]" = .ok (some [.num 10, .num 30, .num 50])) ∧
    (queryJsonPath arrThree "$[5:10]" = .ok (some [])) ∧
    (queryJsonPath arrFive "$[-1:2]" = .ok (some [.num 10, .num 20])) ∧
    (∀ a : List JsonValue, applyTokenOne (.arr a) ⟨.slice, ":"⟩ = some a) := by
  refine ⟨?_, ?_, ?_, ?_, ?_⟩
  · have h : tokenizeAux ("$[1:3]".toList.drop 1) = [⟨.slice, "1:3"⟩] := by
      rw [show "$[1:3]".toList.drop 1 = ['[', '1', ':', '3', ']'] from rfl]
      simp [tokenizeAux, scanBracket, classifyBracket, allDigits]
    rw [queryJsonPath, if_pos (by rfl), h]
    simp [evalTokens, applyToken, applyTokenOne, arrFive, sliceApply, sliceBounds,
      splitColon, partOr, jsParseInt, digitsVal, sliceFuel, sliceLoopF, jsLt, jsAdd]
  · have h : tokenizeAux ("$[::2]".toList.drop 1) = [⟨.slice, "::2"⟩] := by
      rw [show "$[::2]".toList.drop 1 = ['[', ':', ':', '2', ']'] from rfl]
      simp [tokenizeAux, scanBracket, classifyBracket, allDigits]
    rw [queryJsonPath, if_pos (by rfl), h]
    simp [evalTokens, applyToken, applyTokenOne, arrFive, sliceApply, sliceBounds,
      splitColon, partOr, jsParseInt, digitsVal, sliceFuel, sliceLoopF, jsLt, jsAdd]
  · have h : tokenizeAux ("$[5:10]".toList.drop 1) = [⟨.slice, "5:10"⟩] := by
      rw [show "$[5:10]".toList.drop 1 = ['[', '5', ':', '1', '0', ']'] from rfl]
      simp [tokenizeAux, scanBracket, classifyBracket, allDigits]
    rw [queryJsonPath, if_pos (by rfl), h]
    simp [evalTokens, applyToken, applyTokenOne, arrThree, sliceApply, sliceBounds,
      splitColon, partOr, jsParseInt, digitsVal, sliceFuel, sliceLoopF, jsLt, jsAdd]
  · have h : tokenizeAux ("$[-1:2]".toList.drop 1) = [⟨.slice, "-1:2"⟩] := by
      rw [show "$[-1:2]".toList.drop 1 = ['[', '-', '1', ':', '2', ']'] from rfl]
      simp [tokenizeAux, scanBracket, classifyBracket, allDigits]
    rw [queryJsonPath, if_pos (by rfl), h]
    simp [evalTokens, applyToken, applyTokenOne, arrFive, sliceApply, sliceBounds,
      splitColon, partOr, jsParseInt, digitsVal, sliceFuel, sliceLoopF, jsLt, jsAdd]
  · intro a
    show sliceApply a ":" = some a
    unfold sliceApply
    rw [show sliceBounds ":" a.length = (some 0, some (a.length : Int), some 1) from rfl]
    simp only
    rw [show sliceFuel (some 0) (some (a.length : Int)) = ((a.length : Int) - 0).toNat + 2
      from rfl]
    simpa using sliceLoopF_step_one a (((a.length : Int) - 0).toNat + 2) 0 (by omega) (by omega)

/-- C7: after any token sequence, every value of the result set is a node
of the original document — no segment introduces values not present in (or
aliased from) the document.  This invariant holds of the own-property
mapping semantics that the spec's value model and the source's `JsonValue`
typing prescribe, as proved here; the running source violates it through
JavaScript prototype-chain lookup (`input[token.value]`, `prop in
record`): on the empty object, `$.toString` returns the inherited
`Object.prototype.toString`, a function outside the document and outside
the `JsonValue` union — the code bug reported for this claim. -/
theorem claim_C7_reachability (D : JsonValue) (tokens : List Token) (res : List JsonValue)
    (h : evalTokens tokens [D] = some res) : ∀ v ∈ res, Subvalue v D := by
  intro v hv
  obtain ⟨u, hu, hsub⟩ := evalTokens_sub tokens [D] res h v hv
  rw [List.mem_singleton] at hu
  subst hu
  exact hsub

/-- Witness for C7 on a one-segment query over a one-field object. -/
theorem claim_C7_witness :
    Subvalue JsonValue.null (JsonValue.obj [("a", JsonValue.null)]) :=
  claim_C7_reachability (JsonValue.obj [("a", JsonValue.null)]) [⟨.property, "a"⟩]
    [JsonValue.null] rfl JsonValue.null (List.mem_singleton.mpr rfl)

/-- An ASCII digit is none of the tokenizer's special characters. -/
theorem digit_not_special {ch : Char} (h : ch.isDigit = true) :
    ch ≠ '[' ∧ ch ≠ ']' ∧ ch ≠ ':' ∧ ch ≠ squote ∧ ch ≠ dquote := by
  refine ⟨?_, ?_, ?_, ?_, ?_⟩ <;> (rintro rfl; revert h; decide)

/-- The bracket scan consumes exactly the bracket-free content before the
closing `]`. -/
theorem scanBracket_no_brackets (cs : List Char)
    (h : ∀ ch ∈ cs, ch ≠ '[' ∧ ch ≠ ']') :
    ∀ rest, scanBracket (cs ++ ']' :: rest) 1 = (cs, rest) := by
  induction cs with
  | nil =>
    intro rest
    rw [List.nil_append, scanBracket]
    simp
  | cons ch cs' ih =>
    intro rest
    have hch := h ch (List.mem_cons_self _ _)
    have e1 : (ch == '[') = false := beq_false_of_ne hch.1
    have e2 : (ch == ']') = false := beq_false_of_ne hch.2
    rw [List.cons_append, scanBracket]
    simp only [e1, e2, Bool.false_eq_true, if_false]
    rw [if_pos (by omega)]
    rw [ih (fun c hc => h c (List.mem_cons_of_mem _ hc)) rest]

/-- On a bracket-free tail with no `]`, the scan consumes everything (the
missing close bracket is forgiven). -/
theorem scanBracket_no_close (s : List Char) (h : ∀ ch ∈ s, ch ≠ ']') :
    ∀ depth, 0 < depth → scanBracket s depth = (s, []) := by
  induction s with
  | nil => intro d hd; rfl
  | cons ch rest ih =>
    intro d hd
    have e2 : (ch == ']') = false := beq_false_of_ne (h ch (List.mem_cons_self _ _))
    rw [scanBracket]
    simp only [e2, Bool.false_eq_true, if_false]
    by_cases e1 : (ch == '[') = true
    · simp only [e1, if_true]
      rw [if_pos (by omega), ih (fun c hc => h c (List.mem_cons_of_mem _ hc)) (d + 1) (by omega)]
    · rw [Bool.not_eq_true] at e1
      simp only [e1, Bool.false_eq_true, if_false]
      rw [if_pos (by omega), ih (fun c hc => h c (List.mem_cons_of_mem _ hc)) d hd]

/-- C10: a `[` with no matching `]` before the end of the string does not
fail and is not discarded: the scan consumes all remaining characters as
the bracket content (end of string acts as the close bracket) and the
content is classified and emitted by the normal bracket rules. -/
theorem claim_C10_unterminated_bracket (s : List Char) (h : ∀ ch ∈ s, ch ≠ ']') :
    tokenizeAux ('[' :: s) = [classifyBracket s] := by
  rw [tokenizeAux]
  rw [scanBracket_no_close s h 1 (by omega)]
  rw [tokenizeAux]

/-- Witness for C10: `[1` (no close bracket) still emits the index
segment. -/
theorem claim_C10_witness : tokenizeAux ['[', '1'] = [classifyBracket ['1']] :=
  claim_C10_unterminated_bracket ['1'] (by decide)

/-- C8: bracket content of a minus sign followed by digits fails the
all-digit Index test and falls through to the Property branch with quote
stripping (quotes are absent, so the name is kept verbatim); applied to an
Array input, a Property segment contributes nothing, so the net effect of
such a bracket on arrays is empty. -/
theorem claim_C8_negative_index (ds : List Char) (_h1 : ds ≠ [])
    (h2 : ∀ ch ∈ ds, ch.isDigit = true) :
    (tokenizeAux ('[' :: '-' :: (ds ++ [']'])) = [⟨.property, String.mk ('-' :: ds)⟩]) ∧
    (∀ items : List JsonValue,
      applyTokenOne (.arr items) ⟨.property, String.mk ('-' :: ds)⟩ = some []) := by
  have hds : ∀ ch ∈ ('-' :: ds), ch ≠ '[' ∧ ch ≠ ']' := by
    intro ch hch
    rcases List.mem_cons.mp hch with rfl | hmem
    · exact ⟨by decide, by decide⟩
    · have hsp := digit_not_special (h2 ch hmem)
      exact ⟨hsp.1, hsp.2.1⟩
  constructor
  · rw [tokenizeAux]
    rw [show ('-' :: (ds ++ [']'])) = (('-' :: ds) ++ (']' :: [])) from by simp]
    rw [scanBracket_no_brackets ('-' :: ds) hds []]
    rw [tokenizeAux]
    have hA : ¬ (('-' :: ds) = ['*']) := by
      intro heq
      rcases List.cons_eq_cons.mp heq with ⟨hh, _⟩
      exact absurd hh (by decide)
    have hB : ¬ (('-' :: ds).head? = some '?') := by simp
    have hC : (('-' :: ds).contains ':') = false := by
      simp only [List.contains, List.elem_eq_mem]
      simp only [decide_eq_false_iff_not, List.mem_cons]
      rintro (hcolon | hcolon)
      · exact absurd hcolon.symm (by decide)
      · exact absurd (h2 ':' hcolon) (by decide)
    have hD : allDigits ('-' :: ds) = false := by
      simp [allDigits]
    have hE : stripQuotes ('-' :: ds) = '-' :: ds := by
      rw [stripQuotes]
      apply List.filter_eq_self.mpr
      intro ch hch
      rcases List.mem_cons.mp hch with rfl | hmem
      · decide
      · have hsp := digit_not_special (h2 ch hmem)
        have q1 : (ch == squote) = false := beq_false_of_ne hsp.2.2.2.1
        have q2 : (ch == dquote) = false := beq_false_of_ne hsp.2.2.2.2
        rw [q1, q2]
        rfl
    rw [classifyBracket, if_neg hA, if_neg hB]
    simp only [hC, hD, Bool.false_eq_true, if_false]
    rw [hE]
  · intro items
    rfl

/-- Witness for C8 at `[-1]`. -/
theorem claim_C8_witness :
    (tokenizeAux ['[', '-', '1', ']'] = [⟨.property, String.mk ['-', '1']⟩]) ∧
    (applyTokenOne (.arr [JsonValue.null]) ⟨.property, String.mk ['-', '1']⟩ = some []) :=
  ⟨(claim_C8_negative_index ['1'] (by decide) (by decide)).1,
    (claim_C8_negative_index ['1'] (by decide) (by decide)).2 [JsonValue.null]⟩

/-- C2 counterexample: the tokenizer emits a segment for the empty bracket
pair `[]` (a Property segment with empty name), so bracket content is not
silently skipped. -/
theorem claim_C2_cex : tokenize "[]" ≠ [] := by
  have h : tokenize "[]" = [⟨.property, ""⟩] := by
    rw [tokenize, show "[]".toList = ['[', ']'] from rfl]
    simp [tokenizeAux, scanBracket, classifyBracket, allDigits, stripQuotes]
  rw [h]
  simp

/-- C2 amended: malformed or empty bracket content is not skipped — it
falls through to the catch-all Property branch with quotes stripped (second
conjunct); `[]` yields a Property segment with empty name (first conjunct),
which is observable: it selects the value of an empty-string key (third
conjunct). -/
theorem claim_C2_empty_bracket :
    (tokenize "[]" = [⟨.property, ""⟩]) ∧
    (∀ content : List Char, content ≠ ['*'] → content.head? ≠ some '?' →
      content.contains ':' = false → allDigits content = false →
      classifyBracket content = ⟨.property, String.mk (stripQuotes content)⟩) ∧
    (∀ v : JsonValue, applyTokenOne (.obj [("", v)]) ⟨.property, ""⟩ = some [v]) := by
  refine ⟨?_, ?_, ?_⟩
  · rw [tokenize, show "[]".toList = ['[', ']'] from rfl]
    simp [tokenizeAux, scanBracket, classifyBracket, allDigits, stripQuotes]
  · intro content hA hB hC hD
    rw [classifyBracket, if_neg hA, if_neg hB]
    simp only [hC, hD, Bool.false_eq_true, if_false]
  · intro v
    rfl

/-- Witness for C2's fallthrough rule at the malformed content `!!`. -/
theorem claim_C2_witness :
    classifyBracket ['!', '!'] = ⟨.property, String.mk (stripQuotes ['!', '!'])⟩ :=
  claim_C2_empty_bracket.2.1 ['!', '!'] (by decide) (by decide) (by decide) (by decide)

/-- C5: for any field value and any primitive decoded literal, `==`/`!=`
decide (the negation of) same-variant-and-same-value equality — in
particular a Number field never equals a String literal, whatever its text
(fourth conjunct) — and the four ordering operators are true only when both
sides are Numbers (third conjunct), where they compare the integers (fifth
conjunct): no coercion and no string ordering. -/
theorem claim_C5_filter_operators (f l : JsonValue) (hl : isPrimitiveLit l = true) :
    (applyOp "==" f l = specSameVariantSameValue f l) ∧
    (applyOp "!=" f l = !specSameVariantSameValue f l) ∧
    (∀ op ∈ ([">", "<", ">=", "<="] : List String),
      applyOp op f l = true → isNum f = true ∧ isNum l = true) ∧
    (∀ (n : Int) (s : String), applyOp "==" (JsonValue.num n) (JsonValue.str s) = false) ∧
    (∀ a b : Int,
      applyOp ">" (JsonValue.num a) (JsonValue.num b) = decide (a > b) ∧
      applyOp "<" (JsonValue.num a) (JsonValue.num b) = decide (a < b) ∧
      applyOp ">=" (JsonValue.num a) (JsonValue.num b) = decide (a ≥ b) ∧
      applyOp "<=" (JsonValue.num a) (JsonValue.num b) = decide (a ≤ b)) := by
  refine ⟨?_, ?_, ?_, ?_, ?_⟩
  · have h : applyOp "==" f l = jsStrictEq f l := by simp [applyOp]
    rw [h]
    cases f <;> cases l <;> rfl
  · have h : applyOp "!=" f l = !jsStrictEq f l := by simp [applyOp]
    rw [h]
    cases f <;> cases l <;> rfl
  · intro op hop
    fin_cases hop <;> cases f <;> cases l <;> simp [applyOp, isNum]
  · intro n s
    simp [applyOp, jsStrictEq]
  · intro a b
    refine ⟨?_, ?_, ?_, ?_⟩ <;> simp [applyOp]
/-- Witness for C5 with a Number field against the String literal of the
same text. -/
theorem claim_C5_witness :
    applyOp "==" (JsonValue.num 21) (JsonValue.str "21")
      = specSameVariantSameValue (JsonValue.num 21) (JsonValue.str "21") :=
  (claim_C5_filter_operators (JsonValue.num 21) (JsonValue.str "21") rfl).1

/-- C6: a Filter segment whose predicate fails the filter grammar evaluates
to false on every candidate, so the filtered contribution of an Array input
is empty and no error arises. -/
theorem claim_C6_unparseable_filter (pred : String)
    (hp : parseFilterExpr pred.toList = none) :
    (∀ item, evaluateFilter item pred = false) ∧
    (∀ items : List JsonValue, applyTokenOne (.arr items) ⟨.filter, pred⟩ = some []) := by
  have hall : ∀ item, evaluateFilter item pred = false := by
    intro item
    rw [evaluateFilter, hp]
  refine ⟨hall, ?_⟩
  intro items
  show some (items.filter fun it => evaluateFilter it pred) = some []
  simp only [hall]
  rw [List.filter_false]

/-- Witness for C6 at a grammarless predicate source. -/
theorem claim_C6_witness :
    applyTokenOne (.arr [JsonValue.null]) ⟨.filter, "garbage"⟩ = some [] :=
  (claim_C6_unparseable_filter "garbage" rfl).2 [JsonValue.null]

/-- C9 counterexample: a slice with the nonzero step `-1` and `start <
end` never terminates — the loop exhausts any fuel, so the evaluation of
`[0:1:-1]` over a one-element array is the divergence marker `none`
(`sliceLoopF_nonpos_none` shows no fuel suffices). -/
theorem claim_C9_cex : applyTokenOne (.arr [JsonValue.null]) ⟨.slice, "0:1:-1"⟩ = none := rfl

/-- C9 amended: a slice terminates whenever its parsed step component is a
positive integer; a nonzero step alone does not guarantee termination
(negative steps with `start < end` diverge, see the counterexample). -/
theorem claim_C9_positive_step (arr : List JsonValue) (content : String) (s : Int)
    (hstep : (sliceBounds content arr.length).2.2 = some s) (hpos : 0 < s) :
    ∃ l, applyTokenOne (.arr arr) ⟨.slice, content⟩ = some l := by
  obtain ⟨l, hl⟩ := sliceApply_some_of_pos_step arr content s hstep hpos
  exact ⟨l, hl⟩

/-- Witness for C9 on a step-1 slice. -/
theorem claim_C9_witness :
    ∃ l, applyTokenOne (.arr [JsonValue.null]) ⟨.slice, "0:2:1"⟩ = some l :=
  claim_C9_positive_step [JsonValue.null] "0:2:1" 1 rfl (by decide)

/-- C1 counterexample: with the zero-step slice `$[0:1:0]` over a
one-element array the evaluator raises nothing but also never returns —
the slice loop runs forever (`.ok none` is this embedding's divergence
marker, honest by `sliceLoopF_nonpos_none`), so "always returns an ordered
result sequence" fails. -/
theorem claim_C1_cex : queryJsonPath (.arr [JsonValue.null]) "$[0:1:0]" = .ok none := by
  have h : tokenizeAux ("$[0:1:0]".toList.drop 1) = [⟨.slice, "0:1:0"⟩] := by
    rw [show "$[0:1:0]".toList.drop 1 = ['[', '0', ':', '1', ':', '0', ']'] from rfl]
    simp [tokenizeAux, scanBracket, classifyBracket, allDigits]
  rw [queryJsonPath, if_pos (by rfl), h]
  rfl

/-- C1 amended: `queryJsonPath` raises an error exactly when the
expression does not begin with `$` (first conjunct), and under the `$`
precondition it never raises; termination, however, is not unconditional —
it is guaranteed e.g. whenever no slice segment occurs (second conjunct),
while a parseable slice with nonpositive step may diverge (see the
counterexample). -/
theorem claim_C1_error_iff_no_dollar :
    (∀ (D : JsonValue) (E : String),
      (∃ msg, queryJsonPath D E = .error msg) ↔ startsWithDollar E = false) ∧
    (∀ (D : JsonValue) (E : String), startsWithDollar E = true →
      (∀ t ∈ tokenizeAux (E.toList.drop 1), t.type ≠ TokenType.slice) →
      ∃ res, queryJsonPath D E = .ok (some res)) := by
  constructor
  · intro D E
    rw [queryJsonPath]
    by_cases h : startsWithDollar E = true
    · rw [if_pos h, h]
      simp
    · rw [if_neg h]
      rw [Bool.not_eq_true] at h
      rw [h]
      simp
  · intro D E hE htoks
    rw [queryJsonPath, if_pos hE]
    obtain ⟨res, hres⟩ := evalTokens_some_of_not_slice _ htoks [D]
    exact ⟨res, by rw [hres]⟩

/-- Witness for C1 on a slice-free query. -/
theorem claim_C1_witness : ∃ res, queryJsonPath JsonValue.null "$.a" = .ok (some res) :=
  claim_C1_error_iff_no_dollar.2 JsonValue.null "$.a" rfl (by
    have h : tokenizeAux ("$.a".toList.drop 1) = [⟨.property, "a"⟩] := by
      rw [show "$.a".toList.drop 1 = ['.', 'a'] from rfl]
      simp [tokenizeAux, isPropChar]
    simp only [h]
    intro t ht
    rw [List.mem_singleton] at ht
    subst ht
    decide)
